import Mathlib

/-!
Shallow embedding of `include/glow/Support/ADT.h` (namespace `glow`):
the read-only array view `ArrayRef`, and the string view `StringRef`
with its search / split / prefix / comparison operations.

Memory is modelled as a total map from addresses (`Nat`) to byte values
(`Nat`); a view is a (data address, length) pair, exactly as in the
source.  Pointer arithmetic inside a valid object never overflows
`size_t`, so addresses and lengths are plain naturals; where the C++
sentinel `npos = ~size_t(0)` matters it appears as the concrete value
`2 ^ 64 - 1`, together with the (always true in C++) side condition
that a view's length is at most `npos`.
-/

namespace Glow

/-- A memory: byte value stored at each address. -/
abbrev Mem := Nat → Nat

/-- `ArrayRef` data model: a start address and a length, as in the source
(`const T *data_; size_type length_;`).  Elements live in a `Mem`. -/
structure ArrayRef where
  data : Nat
  length : Nat
deriving DecidableEq

namespace ArrayRef

/-- `size_t size() const { return length_; }` -/
def size (a : ArrayRef) : Nat := a.length

/-- `bool empty() const { return length_ == 0; }` -/
def empty (a : ArrayRef) : Bool := a.length == 0

/-- `ArrayRef<T> drop_back(size_t N = 1) const` from the source:
`assert(size() >= 1 && "Array is empty"); return ArrayRef(data(), size() - 1);`.
The parameter `N` appears in the signature but is not used by the body. -/
def drop_back (a : ArrayRef) (N : Nat) : ArrayRef :=
  ⟨a.data, a.size - 1⟩

/-- The assertion guarding `drop_back` in the source: `size() >= 1`. -/
def drop_back_assert (a : ArrayRef) (N : Nat) : Prop := 1 ≤ a.size

end ArrayRef

/-- `static const size_t npos = ~size_t(0);` -/
def npos : Nat := 2 ^ 64 - 1

/-- `StringRef` data model: `const char *Data; size_t Length;`. -/
structure StringRef where
  Data : Nat
  Length : Nat
deriving DecidableEq

namespace StringRef

/-- `size_t size() const { return Length; }` -/
def size (s : StringRef) : Nat := s.Length

/-- `bool empty() const { return Length == 0; }` -/
def empty (s : StringRef) : Bool := s.Length == 0

/-- The character sequence a view denotes: the bytes at
`Data, Data + 1, ..., Data + Length - 1`. -/
def content (mem : Mem) (s : StringRef) : List Nat :=
  (List.range s.Length).map (fun i => mem (s.Data + i))

/-- `memcmp` over `Length` bytes starting at `Lhs` and `Rhs`: sign of the
first differing byte comparison (bytes compared as unsigned values),
`0` when all bytes agree. -/
def memcmpAux (mem : Mem) (l r : Nat) : Nat → Int
  | 0 => 0
  | n + 1 =>
    if mem l < mem r then -1
    else if mem r < mem l then 1
    else memcmpAux mem (l + 1) (r + 1) n

/-- `static int compareMemory(const char *Lhs, const char *Rhs, size_t Length)`:
returns `0` when `Length == 0` (avoiding `memcmp` on null), else `memcmp`. -/
def compareMemory (mem : Mem) (l r len : Nat) : Int :=
  if len = 0 then 0 else memcmpAux mem l r len

/-- `bool equals(StringRef RHS) const`:
`Length == RHS.Length && compareMemory(Data, RHS.Data, RHS.Length) == 0`. -/
def equals (mem : Mem) (s rhs : StringRef) : Bool :=
  s.Length == rhs.Length && compareMemory mem s.Data rhs.Data rhs.Length == 0

/-- `int compare(StringRef RHS) const` from the source: check the common
prefix with `compareMemory`, then compare lengths. -/
def compare (mem : Mem) (s rhs : StringRef) : Int :=
  let res := compareMemory mem s.Data rhs.Data (min s.Length rhs.Length)
  if res ≠ 0 then (if res < 0 then -1 else 1)
  else if s.Length = rhs.Length then 0
  else if s.Length < rhs.Length then -1 else 1

/-- `bool startswith(StringRef Prefix) const`. -/
def startswith (mem : Mem) (s pre : StringRef) : Bool :=
  decide (pre.Length ≤ s.Length) &&
    compareMemory mem s.Data pre.Data pre.Length == 0

/-- `bool endswith(StringRef Suffix) const`. -/
def endswith (mem : Mem) (s suf : StringRef) : Bool :=
  decide (suf.Length ≤ s.Length) &&
    compareMemory mem (s.Data + s.Length - suf.Length) suf.Data suf.Length == 0

/-- `memchr(p, c, n)`: offset of the first byte equal to `c` among the `n`
bytes starting at `p`, if any. -/
def memchrAux (mem : Mem) (p c : Nat) : Nat → Option Nat
  | 0 => none
  | n + 1 =>
    if mem p = c then some 0
    else (memchrAux mem (p + 1) c n).map (· + 1)

/-- `size_t find(char C, size_t From = 0) const` from the source:
`FindBegin = min(From, Length)`; when `FindBegin < Length`, forward to
`memchr` on the tail and convert the hit back to an index; else `npos`. -/
def find (mem : Mem) (s : StringRef) (c : Nat) (From : Nat) : Nat :=
  let FindBegin := min From s.Length
  if FindBegin < s.Length then
    match memchrAux mem (s.Data + FindBegin) c (s.Length - FindBegin) with
    | some i => FindBegin + i
    | none => npos
  else npos

/-- The backward scan of `rfind`: `i` starts at the clamped `From` and is
decremented; the first hit is returned, else `npos`. -/
def rfindAux (mem : Mem) (d c : Nat) : Nat → Nat
  | 0 => npos
  | i + 1 => if mem (d + i) = c then i else rfindAux mem d c i

/-- `size_t rfind(char C, size_t From = npos) const`:
`From = min(From, Length)` then scan backward. -/
def rfind (mem : Mem) (s : StringRef) (c : Nat) (From : Nat) : Nat :=
  rfindAux mem s.Data c (min From s.Length)

/-- `StringRef substr(size_t Start, size_t N = npos) const`:
`Start = min(Start, Length); return StringRef(Data + Start, min(N, Length - Start));`. -/
def substr (s : StringRef) (Start N : Nat) : StringRef :=
  let St := min Start s.Length
  ⟨s.Data + St, min N (s.Length - St)⟩

/-- `StringRef slice(size_t Start, size_t End) const`:
`Start = min(Start, Length); End = min(max(Start, End), Length);
return StringRef(Data + Start, End - Start);`. -/
def slice (s : StringRef) (Start En : Nat) : StringRef :=
  let St := min Start s.Length
  let En2 := min (max St En) s.Length
  ⟨s.Data + St, En2 - St⟩

/-- `StringRef drop_front(size_t N = 1) const`:
`assert(size() >= N); return substr(N);` (with `substr`'s default `npos`). -/
def drop_front (s : StringRef) (N : Nat) : StringRef :=
  s.substr N npos

/-- `StringRef drop_back(size_t N = 1) const`:
`assert(size() >= N); return substr(0, size() - N);`. -/
def drop_back (s : StringRef) (N : Nat) : StringRef :=
  s.substr 0 (s.size - N)

/-- `StringRef take_front(size_t N = 1) const`:
`if (N >= size()) return *this; return drop_back(size() - N);`. -/
def take_front (s : StringRef) (N : Nat) : StringRef :=
  if s.size ≤ N then s else s.drop_back (s.size - N)

/-- `StringRef take_back(size_t N = 1) const`:
`if (N >= size()) return *this; return drop_front(size() - N);`. -/
def take_back (s : StringRef) (N : Nat) : StringRef :=
  if s.size ≤ N then s else s.drop_front (s.size - N)

/-- `bool consume_front(StringRef Prefix)`: mutates the view in place; the
model returns the flag together with the updated view. -/
def consume_front (mem : Mem) (s pre : StringRef) : Bool × StringRef :=
  if startswith mem s pre then (true, s.drop_front pre.size)
  else (false, s)

/-- `bool consume_back(StringRef Suffix)`: mutates the view in place; the
model returns the flag together with the updated view. -/
def consume_back (mem : Mem) (s suf : StringRef) : Bool × StringRef :=
  if endswith mem s suf then (true, s.drop_back suf.size)
  else (false, s)

/-- `std::pair<StringRef, StringRef> split(char Separator) const`:
`Idx = find(Separator); if (Idx == npos) return {*this, StringRef()};
return {slice(0, Idx), slice(Idx + 1, npos)};`.  The default-constructed
`StringRef()` is the null view `⟨0, 0⟩`. -/
def split (mem : Mem) (s : StringRef) (sep : Nat) : StringRef × StringRef :=
  let Idx := find mem s sep 0
  if Idx = npos then (s, ⟨0, 0⟩)
  else (s.slice 0 Idx, s.slice (Idx + 1) npos)

end StringRef

/-- The allocator abstraction `copy` uses: `A.Allocate<char>(N)` hands out
the next free address.  `calls` counts invocations and `allocated` the
total units handed out, so that "does not invoke the allocator" is
observable. -/
structure Alloc where
  next : Nat
  calls : Nat
  allocated : Nat
deriving DecidableEq

/-- `A.template Allocate<char>(N)`: returns a block address and the
advanced allocator. -/
def Alloc.Allocate (A : Alloc) (n : Nat) : Nat × Alloc :=
  (A.next, ⟨A.next + n, A.calls + 1, A.allocated + n⟩)

namespace StringRef

/-- `StringRef copy(Allocator &A) const`: for an empty view return
`StringRef()` without touching the allocator; otherwise allocate
`Length` units, `std::copy` the bytes into the fresh block, and return a
view over it.  The result is the returned view, the updated allocator,
and the updated memory. -/
def copy (mem : Mem) (s : StringRef) (A : Alloc) : StringRef × Alloc × Mem :=
  if s.empty then (⟨0, 0⟩, A, mem)
  else
    let p := A.Allocate s.Length
    let memNew : Mem := fun a =>
      if p.1 ≤ a ∧ a < p.1 + s.Length then mem (s.Data + (a - p.1)) else mem a
    (⟨p.1, s.Length⟩, p.2, memNew)

/-- `StringRef(const char *Str) : Data(Str), Length(Str ? ::strlen(Str) : 0)`.
Null is address `0`.  `strlen` is the least `n` with a zero byte at
`p + n`; it is only meaningful (and only evaluated by the source) when
the pointer is non-null, hence the conditional existence hypothesis. -/
def fromCString (mem : Mem) (p : Nat) (h : p ≠ 0 → ∃ n, mem (p + n) = 0) :
    StringRef :=
  { Data := p,
    Length := if hp : p = 0 then 0 else Nat.find (h hp) }

end StringRef

/-- Concrete memory used for worked examples: the bytes of
`"ab" ++ "abc" ++ "b" ++ "ab" ++ "x" ++ "x"` laid out from address 0. -/
def memEx : Mem := fun a => [97, 98, 97, 98, 99, 98, 97, 98, 120, 120].getD a 0

/-- Concrete memory for the C-string construction examples: a zero byte
(the terminator) at address 5 only. -/
def memW : Mem := fun a => if a = 5 then 0 else 1

/-- At the null address the existence obligation of `fromCString` is vacuous. -/
def hW0 : (0 : Nat) ≠ 0 → ∃ n, memW (0 + n) = 0 := fun hp => absurd rfl hp

/-- The buffer at address 3 has its terminator two bytes in. -/
def hW3 : (3 : Nat) ≠ 0 → ∃ n, memW (3 + n) = 0 := fun _ => ⟨2, by decide⟩

/-! ## Helper lemmas -/

open StringRef

/-- Splitting a bounded universal at the bottom rather than the top. -/
theorem forall_lt_succ_shift {P : Nat → Prop} (n : Nat) :
    (∀ i < n + 1, P i) ↔ P 0 ∧ ∀ i < n, P (i + 1) := by
  constructor
  · intro h
    exact ⟨h 0 (Nat.succ_pos n), fun i hi => h (i + 1) (Nat.succ_lt_succ hi)⟩
  · rintro ⟨h0, h⟩ i hi
    cases i with
    | zero => exact h0
    | succ j => exact h j (Nat.lt_of_succ_lt_succ hi)

theorem memcmpAux_eq_zero_iff (mem : Mem) :
    ∀ (n l r : Nat),
      memcmpAux mem l r n = 0 ↔ ∀ i < n, mem (l + i) = mem (r + i) := by
  intro n
  induction n with
  | zero => intro l r; simp [memcmpAux]
  | succ m ih =>
    intro l r
    rw [forall_lt_succ_shift]
    simp only [memcmpAux]
    by_cases h1 : mem l < mem r
    · rw [if_pos h1]
      constructor
      · intro h; exact absurd h (by decide)
      · rintro ⟨h0, -⟩
        rw [Nat.add_zero, Nat.add_zero] at h0
        exact absurd h0 (Nat.ne_of_lt h1)
    · rw [if_neg h1]
      by_cases h2 : mem r < mem l
      · rw [if_pos h2]
        constructor
        · intro h; exact absurd h (by decide)
        · rintro ⟨h0, -⟩
          rw [Nat.add_zero, Nat.add_zero] at h0
          exact absurd h0.symm (Nat.ne_of_lt h2)
      · rw [if_neg h2, ih (l + 1) (r + 1)]
        have heq : mem l = mem r :=
          Nat.le_antisymm (Nat.not_lt.mp h2) (Nat.not_lt.mp h1)
        constructor
        · intro h
          refine ⟨by simpa using heq, fun i hi => ?_⟩
          have := h i hi
          rwa [show l + 1 + i = l + (i + 1) by omega,
            show r + 1 + i = r + (i + 1) by omega] at this
        · rintro ⟨-, h⟩ i hi
          have := h i hi
          rwa [show l + (i + 1) = l + 1 + i by omega,
            show r + (i + 1) = r + 1 + i by omega] at this

theorem memcmpAux_first_diff (mem : Mem) :
    ∀ (n l r i : Nat), i < n → (∀ j < i, mem (l + j) = mem (r + j)) →
      mem (l + i) ≠ mem (r + i) →
      memcmpAux mem l r n = if mem (l + i) < mem (r + i) then -1 else 1 := by
  intro n
  induction n with
  | zero => intro l r i hi; exact absurd hi (Nat.not_lt_zero i)
  | succ m ih =>
    intro l r i hi hpre hne
    cases i with
    | zero =>
      simp only [Nat.add_zero] at hne ⊢
      simp only [memcmpAux]
      by_cases h1 : mem l < mem r
      · rw [if_pos h1, if_pos h1]
      · rw [if_neg h1]
        have h2 : mem r < mem l :=
          Nat.lt_of_le_of_ne (Nat.not_lt.mp h1) (Ne.symm hne)
        rw [if_pos h2, if_neg h1]
    | succ j =>
      have h0 : mem l = mem r := by
        have := hpre 0 (Nat.succ_pos j)
        rwa [Nat.add_zero, Nat.add_zero] at this
      simp only [memcmpAux]
      rw [if_neg (by omega), if_neg (by omega)]
      have hj : j < m := Nat.lt_of_succ_lt_succ hi
      have hpre2 : ∀ k < j, mem (l + 1 + k) = mem (r + 1 + k) := by
        intro k hk
        have := hpre (k + 1) (Nat.succ_lt_succ hk)
        rwa [show l + (k + 1) = l + 1 + k by omega,
          show r + (k + 1) = r + 1 + k by omega] at this
      have hne2 : mem (l + 1 + j) ≠ mem (r + 1 + j) := by
        rwa [show l + 1 + j = l + (j + 1) by omega,
          show r + 1 + j = r + (j + 1) by omega]
      have := ih (l + 1) (r + 1) j hj hpre2 hne2
      rwa [show l + 1 + j = l + (j + 1) by omega,
        show r + 1 + j = r + (j + 1) by omega] at this

theorem compareMemory_eq_zero_iff (mem : Mem) (l r n : Nat) :
    compareMemory mem l r n = 0 ↔ ∀ i < n, mem (l + i) = mem (r + i) := by
  unfold compareMemory
  by_cases h : n = 0
  · subst h; simp
  · rw [if_neg h]; exact memcmpAux_eq_zero_iff mem n l r

theorem compareMemory_first_diff (mem : Mem) (l r n i : Nat) (hi : i < n)
    (hpre : ∀ j < i, mem (l + j) = mem (r + j))
    (hne : mem (l + i) ≠ mem (r + i)) :
    compareMemory mem l r n = if mem (l + i) < mem (r + i) then -1 else 1 := by
  unfold compareMemory
  rw [if_neg (by omega)]
  exact memcmpAux_first_diff mem n l r i hi hpre hne

theorem memchrAux_eq_none_iff (mem : Mem) :
    ∀ (n p c : Nat), memchrAux mem p c n = none ↔ ∀ i < n, mem (p + i) ≠ c := by
  intro n
  induction n with
  | zero => intro p c; simp [memchrAux]
  | succ m ih =>
    intro p c
    rw [forall_lt_succ_shift]
    simp only [memchrAux]
    by_cases h : mem p = c
    · simp [h]
    · rw [if_neg h]
      constructor
      · intro hm
        have hnone : memchrAux mem (p + 1) c m = none := by
          cases hmm : memchrAux mem (p + 1) c m with
          | none => rfl
          | some i => rw [hmm] at hm; simp at hm
        have hrec := (ih (p + 1) c).mp hnone
        refine ⟨by simpa using h, fun i hi => ?_⟩
        have := hrec i hi
        rwa [show p + 1 + i = p + (i + 1) by omega] at this
      · rintro ⟨h0, hrest⟩
        have hall : ∀ i < m, mem (p + 1 + i) ≠ c := by
          intro i hi
          have := hrest i hi
          rwa [show p + (i + 1) = p + 1 + i by omega] at this
        rw [(ih (p + 1) c).mpr hall]
        rfl

theorem memchrAux_eq_some (mem : Mem) :
    ∀ (n p c i : Nat), memchrAux mem p c n = some i →
      i < n ∧ mem (p + i) = c ∧ ∀ j < i, mem (p + j) ≠ c := by
  intro n
  induction n with
  | zero => intro p c i h; exact Option.noConfusion h
  | succ m ih =>
    intro p c i h
    simp only [memchrAux] at h
    by_cases h0 : mem p = c
    · rw [if_pos h0] at h
      injection h with h
      subst h
      exact ⟨Nat.succ_pos m, by simpa using h0,
        fun j hj => absurd hj (Nat.not_lt_zero j)⟩
    · rw [if_neg h0] at h
      cases hmm : memchrAux mem (p + 1) c m with
      | none => rw [hmm] at h; simp at h
      | some k =>
        rw [hmm] at h
        simp at h
        subst h
        obtain ⟨hk, hc, hmin⟩ := ih (p + 1) c k hmm
        refine ⟨Nat.succ_lt_succ hk, ?_, ?_⟩
        · rwa [show p + (k + 1) = p + 1 + k by omega]
        · intro j hj
          cases j with
          | zero => simpa using h0
          | succ jj =>
            have := hmin jj (Nat.lt_of_succ_lt_succ hj)
            rwa [show p + (jj + 1) = p + 1 + jj by omega]

/-- Full characterization of `find`: either `npos` and no hit in the searched
range, or the least hit index at or after `From`. -/
theorem find_spec (mem : Mem) (s : StringRef) (c From : Nat)
    (hL : s.Length ≤ npos) :
    (find mem s c From = npos →
      ∀ i, From ≤ i → i < s.Length → mem (s.Data + i) ≠ c) ∧
    (find mem s c From ≠ npos →
      From ≤ find mem s c From ∧ find mem s c From < s.Length ∧
      mem (s.Data + find mem s c From) = c ∧
      ∀ j, From ≤ j → j < find mem s c From → mem (s.Data + j) ≠ c) := by
  by_cases hb : min From s.Length < s.Length
  · have hFrom : min From s.Length = From := by omega
    have hb2 : From < s.Length := by omega
    cases hmm : memchrAux mem (s.Data + From) c (s.Length - From) with
    | none =>
      have hval : find mem s c From = npos := by
        simp only [find, hFrom]
        rw [if_pos hb2, hmm]
      rw [hval]
      have hnone := (memchrAux_eq_none_iff mem _ _ _).mp hmm
      constructor
      · intro _ i hFi hiL
        have := hnone (i - From) (by omega)
        rwa [show s.Data + From + (i - From) = s.Data + i by omega] at this
      · intro hne; exact absurd rfl hne
    | some k =>
      have hval : find mem s c From = From + k := by
        simp only [find, hFrom]
        rw [if_pos hb2, hmm]
      rw [hval]
      obtain ⟨hk, hc, hmin⟩ := memchrAux_eq_some mem _ _ _ _ hmm
      have hres : From + k < s.Length := by omega
      have hnp : From + k ≠ npos := by omega
      constructor
      · intro h; exact absurd h hnp
      · intro _
        refine ⟨Nat.le_add_right From k, hres, ?_, ?_⟩
        · rwa [show s.Data + (From + k) = s.Data + From + k by omega]
        · intro j hFj hjk
          have := hmin (j - From) (by omega)
          rwa [show s.Data + From + (j - From) = s.Data + j by omega] at this
  · have hval : find mem s c From = npos := by
      simp only [find]
      rw [if_neg hb]
    rw [hval]
    constructor
    · intro _ i hFi hiL
      exact absurd hiL (by omega)
    · intro hne; exact absurd rfl hne

/-- Full characterization of the backward scan of `rfind`. -/
theorem rfindAux_spec (mem : Mem) (d c : Nat) :
    ∀ n, n ≤ npos →
      (rfindAux mem d c n = npos → ∀ i < n, mem (d + i) ≠ c) ∧
      (rfindAux mem d c n ≠ npos →
        rfindAux mem d c n < n ∧ mem (d + rfindAux mem d c n) = c ∧
        ∀ j, rfindAux mem d c n < j → j < n → mem (d + j) ≠ c) := by
  intro n
  induction n with
  | zero =>
    intro _
    constructor
    · intro _ i hi; exact absurd hi (Nat.not_lt_zero i)
    · intro hne; exact absurd rfl hne
  | succ m ih =>
    intro hn
    obtain ⟨ih1, ih2⟩ := ih (by omega)
    simp only [rfindAux]
    by_cases h : mem (d + m) = c
    · rw [if_pos h]
      constructor
      · intro hq; exact absurd hq (by omega)
      · intro _
        exact ⟨Nat.lt_succ_self m, h, fun j hj1 hj2 => by omega⟩
    · rw [if_neg h]
      constructor
      · intro hq i hi
        rcases Nat.lt_succ_iff_lt_or_eq.mp hi with hlt | heq
        · exact ih1 hq i hlt
        · rw [heq]; exact h
      · intro hq
        obtain ⟨h1, h2, h3⟩ := ih2 hq
        refine ⟨Nat.lt_succ_of_lt h1, h2, fun j hj1 hj2 => ?_⟩
        rcases Nat.lt_succ_iff_lt_or_eq.mp hj2 with hlt | heq
        · exact h3 j hj1 hlt
        · rw [heq]; exact h

theorem content_mk_length (mem : Mem) (d n : Nat) :
    (content mem ⟨d, n⟩).length = n := by
  simp [content]

theorem content_mk_getElem? (mem : Mem) (d n i : Nat) :
    (content mem ⟨d, n⟩)[i]? =
      if i < n then some (mem (d + i)) else none := by
  by_cases h : i < n <;>
    simp [content, List.getElem?_map, List.getElem?_range, h] <;> omega

theorem content_append (mem : Mem) (d n m : Nat) :
    content mem ⟨d, n + m⟩ = content mem ⟨d, n⟩ ++ content mem ⟨d + n, m⟩ := by
  simp only [content, List.range_add, List.map_append, List.map_map]
  congr 1
  apply List.map_congr_left
  intro i _
  simp [Function.comp, Nat.add_assoc]

theorem content_drop_take (mem : Mem) (d a m L : Nat) (h : a + m ≤ L) :
    ((content mem ⟨d, L⟩).drop a).take m = content mem ⟨d + a, m⟩ := by
  apply List.ext_getElem?
  intro i
  rw [content_mk_getElem?]
  by_cases him : i < m
  · rw [if_pos him]
    rw [List.getElem?_take, if_pos him, List.getElem?_drop,
      content_mk_getElem?, if_pos (by omega)]
    rw [show d + (a + i) = d + a + i by omega]
  · rw [if_neg him]
    rw [List.getElem?_take, if_neg him]

theorem content_length (mem : Mem) (s : StringRef) :
    (content mem s).length = s.Length :=
  content_mk_length mem s.Data s.Length

theorem content_getElem? (mem : Mem) (s : StringRef) (i : Nat) :
    (content mem s)[i]? = if i < s.Length then some (mem (s.Data + i)) else none :=
  content_mk_getElem? mem s.Data s.Length i

theorem substr_Data (s : StringRef) (start n : Nat) :
    (s.substr start n).Data = s.Data + min start s.Length := rfl

theorem substr_Length (s : StringRef) (start n : Nat) :
    (s.substr start n).Length = min n (s.Length - min start s.Length) := rfl

theorem equals_eq_true_iff (mem : Mem) (a b : StringRef) :
    equals mem a b = true ↔
      a.Length = b.Length ∧ ∀ i < b.Length, mem (a.Data + i) = mem (b.Data + i) := by
  unfold equals
  rw [Bool.and_eq_true, beq_iff_eq, beq_iff_eq, compareMemory_eq_zero_iff]

theorem compare_eq_zero_iff (mem : Mem) (a b : StringRef) :
    compare mem a b = 0 ↔
      a.Length = b.Length ∧ ∀ i < b.Length, mem (a.Data + i) = mem (b.Data + i) := by
  simp only [StringRef.compare]
  by_cases hres : compareMemory mem a.Data b.Data (min a.Length b.Length) = 0
  · rw [if_neg (not_not_intro hres)]
    by_cases hlen : a.Length = b.Length
    · rw [if_pos hlen]
      constructor
      · intro _
        refine ⟨hlen, fun i hi => ?_⟩
        exact (compareMemory_eq_zero_iff mem _ _ _).mp hres i (by omega)
      · intro _; rfl
    · rw [if_neg hlen]
      constructor
      · intro h
        by_cases hlt : a.Length < b.Length
        · rw [if_pos hlt] at h; exact absurd h (by decide)
        · rw [if_neg hlt] at h; exact absurd h (by decide)
      · rintro ⟨h1, -⟩; exact absurd h1 hlen
  · rw [if_pos hres]
    constructor
    · intro h
      by_cases hlt : compareMemory mem a.Data b.Data (min a.Length b.Length) < 0
      · rw [if_pos hlt] at h; exact absurd h (by decide)
      · rw [if_neg hlt] at h; exact absurd h (by decide)
    · rintro ⟨h1, h2⟩
      exfalso
      apply hres
      rw [compareMemory_eq_zero_iff]
      intro i hi
      exact h2 i (by omega)

theorem content_take (mem : Mem) (d L k : Nat) (h : k ≤ L) :
    (content mem ⟨d, L⟩).take k = content mem ⟨d, k⟩ := by
  apply List.ext_getElem?
  intro i
  rw [List.getElem?_take, content_mk_getElem?, content_mk_getElem?]
  split_ifs <;> first | rfl | omega

theorem content_drop (mem : Mem) (d L a : Nat) (h : a ≤ L) :
    (content mem ⟨d, L⟩).drop a = content mem ⟨d + a, L - a⟩ := by
  apply List.ext_getElem?
  intro i
  rw [List.getElem?_drop, content_mk_getElem?, content_mk_getElem?]
  split_ifs <;> first | (rw [show d + (a + i) = d + a + i by omega]) | rfl | omega

theorem startswith_le (mem : Mem) (s pre : StringRef)
    (h : startswith mem s pre = true) : pre.Length ≤ s.Length := by
  unfold startswith at h
  rw [Bool.and_eq_true] at h
  exact of_decide_eq_true h.1

theorem endswith_le (mem : Mem) (s suf : StringRef)
    (h : endswith mem s suf = true) : suf.Length ≤ s.Length := by
  unfold endswith at h
  rw [Bool.and_eq_true] at h
  exact of_decide_eq_true h.1

theorem drop_front_eq (s : StringRef) (N : Nat) (h1 : N ≤ s.Length)
    (h2 : s.Length ≤ npos) :
    s.drop_front N = ⟨s.Data + N, s.Length - N⟩ := by
  simp only [drop_front, substr]
  rw [Nat.min_eq_left h1, Nat.min_eq_right (by omega)]

theorem drop_back_eq (s : StringRef) (N : Nat) :
    s.drop_back N = ⟨s.Data, s.Length - N⟩ := by
  simp only [drop_back, substr, size]
  rw [Nat.min_eq_left (Nat.zero_le _), Nat.add_zero, Nat.sub_zero,
    Nat.min_eq_left (by omega)]

/-! ## Claim theorems -/

/-- C1: the claim states that `ArrayRef::drop_back(n)` returns the first
`size() - n` elements, with precondition `size() >= n`.  The source body
ignores `n`: on a view of size 3, `drop_back(2)` returns a view of size
2, not `3 - 2 = 1`; and its guard only checks `size() >= 1`, so it
accepts `drop_back(2)` on a view of size 1 (dropping more elements than
exist). -/
theorem C1_arrayRef_drop_back_ignores_count :
    (ArrayRef.drop_back ⟨10, 3⟩ 2).size = 2 ∧
    (ArrayRef.drop_back ⟨10, 3⟩ 2).size ≠ 3 - 2 ∧
    ArrayRef.drop_back_assert ⟨10, 1⟩ 2 := by
  refine ⟨rfl, by decide, Nat.le_refl 1⟩

/-- C3: `compare` performs byte-wise lexicographic comparison on the common
prefix — equal prefixes are resolved by length (0 / −1 / +1), and a first
differing byte decides via its comparison sign — and the worked examples
`compare("ab","abc") = -1`, `compare("b","ab") = 1`, `compare("x","x") = 0`
hold. -/
theorem C3_compare_lexicographic (mem : Mem) (a b : StringRef) :
    ((∀ i < min a.Length b.Length, mem (a.Data + i) = mem (b.Data + i)) →
      compare mem a b =
        if a.Length = b.Length then 0
        else if a.Length < b.Length then -1 else 1) ∧
    (∀ i < min a.Length b.Length,
      (∀ j < i, mem (a.Data + j) = mem (b.Data + j)) →
      mem (a.Data + i) ≠ mem (b.Data + i) →
      compare mem a b =
        if mem (a.Data + i) < mem (b.Data + i) then -1 else 1) ∧
    compare memEx ⟨0, 2⟩ ⟨2, 3⟩ = -1 ∧
    compare memEx ⟨5, 1⟩ ⟨6, 2⟩ = 1 ∧
    compare memEx ⟨8, 1⟩ ⟨9, 1⟩ = 0 := by
  refine ⟨?_, ?_, by decide, by decide, by decide⟩
  · intro hpre
    have hres : compareMemory mem a.Data b.Data (min a.Length b.Length) = 0 :=
      (compareMemory_eq_zero_iff mem _ _ _).mpr hpre
    simp only [StringRef.compare]
    rw [hres, if_neg (not_not_intro rfl)]
  · intro i hi hpre hne
    have hres :=
      compareMemory_first_diff mem a.Data b.Data (min a.Length b.Length) i hi hpre hne
    simp only [StringRef.compare]
    rw [hres]
    by_cases hlt : mem (a.Data + i) < mem (b.Data + i)
    · rw [if_pos hlt, if_pos (show (-1 : Int) ≠ 0 by decide)]
      decide
    · rw [if_neg hlt, if_pos (show (1 : Int) ≠ 0 by decide)]
      decide

/-- Witness for C3: applying the characterization to the two equal views
over "ab" yields `compare = 0`. -/
theorem C3_witness : compare memEx ⟨0, 2⟩ ⟨6, 2⟩ = 0 := by
  have h := (C3_compare_lexicographic memEx ⟨0, 2⟩ ⟨6, 2⟩).1 (by decide)
  simpa using h

/-- C6: `substr(start, n)` is total: the start index is clamped to
`[0, size]`, the result length is `min n (size - clamped start)`, and the
result denotes exactly that clamped slice of the original characters. -/
theorem C6_substr_clamps (mem : Mem) (s : StringRef) (start n : Nat) :
    (s.substr start n).Data = s.Data + min start s.Length ∧
    (s.substr start n).Length = min n (s.Length - min start s.Length) ∧
    content mem (s.substr start n) =
      ((content mem s).drop (min start s.Length)).take n := by
  refine ⟨rfl, rfl, ?_⟩
  apply List.ext_getElem?
  intro i
  rw [content_getElem?, List.getElem?_take, List.getElem?_drop, content_getElem?,
    substr_Data, substr_Length,
    show s.Data + min start s.Length + i = s.Data + (min start s.Length + i) from
      Nat.add_assoc _ _ _]
  split_ifs <;> first | rfl | omega

/-- C9: string-view `equals` is reflexive, symmetric, consistent with
`compare` returning 0, and returns false whenever the lengths differ. -/
theorem C9_equals_refl_symm_compare (mem : Mem) (a b : StringRef) :
    equals mem a a = true ∧
    equals mem a b = equals mem b a ∧
    (equals mem a b = true ↔ compare mem a b = 0) ∧
    (a.Length ≠ b.Length → equals mem a b = false) := by
  have hsymm : ∀ x y : StringRef, equals mem x y = true → equals mem y x = true := by
    intro x y h
    obtain ⟨h1, h2⟩ := (equals_eq_true_iff mem x y).mp h
    exact (equals_eq_true_iff mem y x).mpr
      ⟨h1.symm, fun i hi => (h2 i (by omega)).symm⟩
  refine ⟨?_, ?_, ?_, ?_⟩
  · exact (equals_eq_true_iff mem a a).mpr ⟨rfl, fun i _ => rfl⟩
  · cases hab : equals mem a b with
    | true => exact (hsymm a b hab).symm
    | false =>
      cases hba : equals mem b a with
      | true => exact absurd (hsymm b a hba) (by simp [hab])
      | false => rfl
  · rw [equals_eq_true_iff, compare_eq_zero_iff]
  · intro h
    cases hab : equals mem a b with
    | true =>
      obtain ⟨h1, -⟩ := (equals_eq_true_iff mem a b).mp hab
      exact absurd h1 h
    | false => rfl

/-- Witness for C9: views of different lengths compare unequal. -/
theorem C9_witness : equals memEx ⟨0, 2⟩ ⟨2, 3⟩ = false :=
  (C9_equals_refl_symm_compare memEx ⟨0, 2⟩ ⟨2, 3⟩).2.2.2 (by decide)

/-- C2: `consume_front(p)` (resp. `consume_back(p)`) returns true and
shortens the view in place by exactly `p.size()` from the front (resp.
back) iff `startswith(p)` (resp. `endswith(p)`) held beforehand;
otherwise it returns false and leaves the view unchanged (same data
address and length). -/
theorem C2_consume_front_back (mem : Mem) (s pre suf : StringRef)
    (hL : s.Length ≤ npos) :
    ((consume_front mem s pre).1 = true ↔ startswith mem s pre = true) ∧
    ((consume_front mem s pre).1 = true →
      (consume_front mem s pre).2.Data = s.Data + pre.Length ∧
      (consume_front mem s pre).2.Length = s.Length - pre.Length) ∧
    ((consume_front mem s pre).1 = false → (consume_front mem s pre).2 = s) ∧
    ((consume_back mem s suf).1 = true ↔ endswith mem s suf = true) ∧
    ((consume_back mem s suf).1 = true →
      (consume_back mem s suf).2.Data = s.Data ∧
      (consume_back mem s suf).2.Length = s.Length - suf.Length) ∧
    ((consume_back mem s suf).1 = false → (consume_back mem s suf).2 = s) := by
  refine ⟨?_, ?_, ?_, ?_, ?_, ?_⟩
  · by_cases hf : startswith mem s pre = true <;> simp [consume_front, hf]
  · intro h1
    by_cases hf : startswith mem s pre = true
    · have hle : pre.Length ≤ s.Length := startswith_le mem s pre hf
      simp [consume_front, hf, size, drop_front_eq s pre.Length hle hL]
    · simp [consume_front, hf] at h1
  · intro h1
    by_cases hf : startswith mem s pre = true
    · simp [consume_front, hf] at h1
    · simp [consume_front, hf]
  · by_cases hf : endswith mem s suf = true <;> simp [consume_back, hf]
  · intro h1
    by_cases hf : endswith mem s suf = true
    · simp [consume_back, hf, size, drop_back_eq s suf.Length]
    · simp [consume_back, hf] at h1
  · intro h1
    by_cases hf : endswith mem s suf = true
    · simp [consume_back, hf] at h1
    · simp [consume_back, hf]

/-- Witness for C2: consuming the prefix "ab" from the view over "abc"
succeeds and re-points the view. -/
theorem C2_witness :
    (consume_front memEx ⟨2, 3⟩ ⟨0, 2⟩).1 = true ∧
    (consume_front memEx ⟨2, 3⟩ ⟨0, 2⟩).2.Data = 4 := by
  have h := C2_consume_front_back memEx ⟨2, 3⟩ ⟨0, 2⟩ ⟨4, 1⟩ (by decide)
  have h1 : (consume_front memEx ⟨2, 3⟩ ⟨0, 2⟩).1 = true := h.1.mpr (by decide)
  refine ⟨h1, ?_⟩
  rw [(h.2.1 h1).1]
  decide

/-- C5: for every `n ≤ size`, `take_front(n)` concatenated with
`drop_front(n)` reconstructs the original character sequence; and for
`n ≥ size`, `take_front(n)` and `take_back(n)` return the whole view
unchanged. -/
theorem C5_take_front_drop_front (mem : Mem) (s : StringRef) (n : Nat)
    (hL : s.Length ≤ npos) :
    (n ≤ s.Length →
      content mem (s.take_front n) ++ content mem (s.drop_front n) =
        content mem s) ∧
    (s.Length ≤ n → s.take_front n = s ∧ s.take_back n = s) := by
  constructor
  · intro hn
    by_cases heq : s.Length ≤ n
    · have hn2 : n = s.Length := Nat.le_antisymm hn heq
      subst hn2
      have h1 : s.take_front s.Length = s := by simp [take_front, size]
      rw [h1, drop_front_eq s s.Length (Nat.le_refl _) hL]
      have h2 : content mem (⟨s.Data + s.Length, s.Length - s.Length⟩ : StringRef) = [] := by
        simp [content, Nat.sub_self]
      rw [h2, List.append_nil]
    · have hlt : n < s.Length := by omega
      have h1 : s.take_front n = ⟨s.Data, n⟩ := by
        simp only [take_front, size, if_neg heq]
        rw [drop_back_eq]
        congr 1
        omega
      rw [h1, drop_front_eq s n (Nat.le_of_lt hlt) hL]
      have hA := content_append mem s.Data n (s.Length - n)
      rw [show n + (s.Length - n) = s.Length by omega] at hA
      exact hA.symm
  · intro hn
    constructor <;> simp [take_front, take_back, size, hn]

/-- Witness for C5: splitting the view over "abc" after one character and
re-concatenating gives back its characters; over-long take returns the
view itself. -/
theorem C5_witness :
    content memEx ((⟨2, 3⟩ : StringRef).take_front 1) ++
        content memEx ((⟨2, 3⟩ : StringRef).drop_front 1) =
      content memEx ⟨2, 3⟩ ∧
    (⟨2, 3⟩ : StringRef).take_front 5 = ⟨2, 3⟩ := by
  have h := C5_take_front_drop_front memEx ⟨2, 3⟩ 1 (by decide)
  have h5 := C5_take_front_drop_front memEx ⟨2, 3⟩ 5 (by decide)
  exact ⟨h.1 (by decide), (h5.2 (by decide)).1⟩

/-- C7: `find(c, from)` returns the least index `i ≥ from` with a matching
byte and `npos` when none exists — in particular when `from ≥ size`,
including on an empty view — and `rfind(c, from)` returns the greatest
index `i < min(from, size)` with a matching byte, `npos` when none
exists. -/
theorem C7_find_rfind (mem : Mem) (s : StringRef) (c From : Nat)
    (hL : s.Length ≤ npos) :
    (s.Length ≤ From → find mem s c From = npos) ∧
    (find mem s c From = npos →
      ∀ i, From ≤ i → i < s.Length → mem (s.Data + i) ≠ c) ∧
    (find mem s c From ≠ npos →
      From ≤ find mem s c From ∧ find mem s c From < s.Length ∧
      mem (s.Data + find mem s c From) = c ∧
      ∀ j, From ≤ j → j < find mem s c From → mem (s.Data + j) ≠ c) ∧
    (rfind mem s c From = npos →
      ∀ i < min From s.Length, mem (s.Data + i) ≠ c) ∧
    (rfind mem s c From ≠ npos →
      rfind mem s c From < min From s.Length ∧
      mem (s.Data + rfind mem s c From) = c ∧
      ∀ j, rfind mem s c From < j → j < min From s.Length →
        mem (s.Data + j) ≠ c) := by
  obtain ⟨hf1, hf2⟩ := find_spec mem s c From hL
  obtain ⟨hr1, hr2⟩ := rfindAux_spec mem s.Data c (min From s.Length) (by omega)
  refine ⟨?_, hf1, hf2, hr1, hr2⟩
  intro hFL
  by_contra hne
  obtain ⟨h1, h2, -, -⟩ := hf2 hne
  omega

/-- Witness for C7: in "ababc" the byte of 'c' is first found at index 4,
and searching from index 7 (past the end) yields `npos`. -/
theorem C7_witness :
    find memEx ⟨0, 5⟩ 99 0 = 4 ∧ rfind memEx ⟨0, 5⟩ 99 npos = 4 ∧
    find memEx ⟨0, 5⟩ 99 7 = npos := by
  have h := C7_find_rfind memEx ⟨0, 5⟩ 99 7 (by decide)
  refine ⟨by decide, by decide, h.1 (by decide)⟩

/-- C4: `split(c)` returns the part strictly before the first occurrence
of `c` and the part strictly after it — the separator excluded from both —
whose concatenation around `c` reconstructs the view; when `c` does not
occur it returns the whole view paired with the empty (default) view. -/
theorem C4_split_first_occurrence (mem : Mem) (s : StringRef) (c : Nat)
    (hL : s.Length ≤ npos) :
    (∀ k, k < s.Length → mem (s.Data + k) = c →
      (∀ j < k, mem (s.Data + j) ≠ c) →
      (split mem s c).1.Length = k ∧
      content mem (split mem s c).1 = (content mem s).take k ∧
      content mem (split mem s c).2 = (content mem s).drop (k + 1) ∧
      content mem (split mem s c).1 ++ c :: content mem (split mem s c).2 =
        content mem s) ∧
    ((∀ i < s.Length, mem (s.Data + i) ≠ c) → split mem s c = (s, ⟨0, 0⟩)) := by
  obtain ⟨hf1, hf2⟩ := find_spec mem s c 0 hL
  constructor
  · intro k hk hck hmin
    have hFne : find mem s c 0 ≠ npos := fun hnp =>
      hf1 hnp k (Nat.zero_le k) hk hck
    obtain ⟨-, hFL, hFc, hFmin⟩ := hf2 hFne
    have hFk : find mem s c 0 = k := by
      by_contra hne
      rcases Nat.lt_or_ge (find mem s c 0) k with hlt | hge
      · exact hmin _ hlt hFc
      · exact hFmin k (Nat.zero_le k) (by omega) hck
    have hsplit : split mem s c = (s.slice 0 k, s.slice (k + 1) npos) := by
      simp only [split]
      rw [hFk, if_neg (by omega : ¬ k = npos)]
    have hsl1 : s.slice 0 k = ⟨s.Data, k⟩ := by
      simp only [StringRef.slice]
      rw [Nat.min_eq_left (Nat.zero_le _), Nat.max_eq_right (Nat.zero_le _),
        Nat.min_eq_left (Nat.le_of_lt hk), Nat.add_zero, Nat.sub_zero]
    have hsl2 : s.slice (k + 1) npos = ⟨s.Data + (k + 1), s.Length - (k + 1)⟩ := by
      simp only [StringRef.slice]
      rw [Nat.min_eq_left (by omega), Nat.max_eq_right (by omega),
        Nat.min_eq_right hL]
    rw [hsplit, hsl1, hsl2]
    refine ⟨rfl, ?_, ?_, ?_⟩
    · exact (content_take mem s.Data s.Length k (Nat.le_of_lt hk)).symm
    · exact (content_drop mem s.Data s.Length (k + 1) (by omega)).symm
    · have hA := content_append mem s.Data k (1 + (s.Length - (k + 1)))
      rw [show k + (1 + (s.Length - (k + 1))) = s.Length by omega] at hA
      have hB := content_append mem (s.Data + k) 1 (s.Length - (k + 1))
      have hC : content mem (⟨s.Data + k, 1⟩ : StringRef) = [c] := by
        simp [content, List.range_succ, hck]
      rw [hB, hC] at hA
      rw [show s.Data + (k + 1) = s.Data + k + 1 by omega]
      show _ ++ _ = content mem (⟨s.Data, s.Length⟩ : StringRef)
      rw [hA]
      simp
  · intro hnone
    have hF : find mem s c 0 = npos := by
      by_contra hne
      obtain ⟨-, hFL, hFc, -⟩ := hf2 hne
      exact hnone _ hFL hFc
    simp only [split]
    rw [hF, if_pos rfl]

/-- Witness for C4: splitting "ababc" at the byte of 'c' (first occurrence
at index 4) and re-concatenating reconstructs the view. -/
theorem C4_witness :
    (split memEx ⟨0, 5⟩ 99).1.Length = 4 ∧
    content memEx (split memEx ⟨0, 5⟩ 99).1 ++
        99 :: content memEx (split memEx ⟨0, 5⟩ 99).2 =
      content memEx ⟨0, 5⟩ := by
  have h := (C4_split_first_occurrence memEx ⟨0, 5⟩ 99 (by decide)).1 4
    (by decide) (by decide) (by decide)
  exact ⟨h.1, h.2.2.2⟩

/-- The non-empty branch of `copy`, written out. -/
theorem copy_of_ne (mem : Mem) (s : StringRef) (A : Alloc) (hne : s.Length ≠ 0) :
    copy mem s A =
      (⟨A.next, s.Length⟩,
        ⟨A.next + s.Length, A.calls + 1, A.allocated + s.Length⟩,
        fun a =>
          if A.next ≤ a ∧ a < A.next + s.Length then mem (s.Data + (a - A.next))
          else mem a) := by
  simp [copy, empty, hne, Alloc.Allocate]

/-- C8: `copy(allocator)` on a non-empty view performs exactly one
allocation of `size()` units, returns a view of length `size()` over the
freshly allocated block whose content is byte-for-byte identical to the
source (a block whose address differs from the source address whenever
the allocator hands out a fresh one); on an empty view it returns the
default empty view without invoking the allocator and leaves memory
untouched. -/
theorem C8_copy (mem : Mem) (s : StringRef) (A : Alloc) :
    (s.Length = 0 -> copy mem s A = (⟨0, 0⟩, A, mem)) ∧
    (s.Length ≠ 0 ->
      (copy mem s A).2.1.calls = A.calls + 1 ∧
      (copy mem s A).2.1.allocated = A.allocated + s.Length ∧
      (copy mem s A).1.Length = s.Length ∧
      (copy mem s A).1.Data = A.next ∧
      content (copy mem s A).2.2 (copy mem s A).1 = content mem s ∧
      (A.next ≠ s.Data -> (copy mem s A).1.Data ≠ s.Data)) := by
  constructor
  · intro h0
    simp [copy, empty, h0]
  · intro hne
    rw [copy_of_ne mem s A hne]
    refine ⟨rfl, rfl, rfl, rfl, ?_, ?_⟩
    · apply List.ext_getElem?
      intro i
      rw [content_mk_getElem?, content_getElem?]
      by_cases hi : i < s.Length
      · rw [if_pos hi, if_pos hi]
        have hcond : A.next ≤ A.next + i ∧ A.next + i < A.next + s.Length :=
          ⟨Nat.le_add_right _ _, by omega⟩
        simp only []
        rw [if_pos hcond, Nat.add_sub_cancel_left]
      · rw [if_neg hi, if_neg hi]
    · intro hfresh
      exact hfresh

/-- Witness for C8: copying the view over "ab" through an allocator at
address 100 performs one allocation and lands at a fresh address, while
copying an empty view returns everything unchanged. -/
theorem C8_witness :
    (copy memEx ⟨0, 2⟩ ⟨100, 0, 0⟩).2.1.calls = 0 + 1 ∧
    (copy memEx ⟨0, 2⟩ ⟨100, 0, 0⟩).1.Data ≠ 0 ∧
    copy memEx ⟨5, 0⟩ ⟨100, 0, 0⟩ = (⟨0, 0⟩, ⟨100, 0, 0⟩, memEx) := by
  have h := C8_copy memEx ⟨0, 2⟩ ⟨100, 0, 0⟩
  have h2 := C8_copy memEx ⟨5, 0⟩ ⟨100, 0, 0⟩
  obtain ⟨hc, -, -, -, -, hd⟩ := h.2 (by decide)
  exact ⟨hc, hd (by decide), h2.1 (by decide)⟩

/-- C10: constructing a `StringRef` from a null `const char*` (address 0)
is well defined and yields the empty view — with length 0 and no
dependence on memory contents, i.e. no terminator scan — while for a
non-null pointer the stored length is the `strlen` of the buffer: the
distance to the first zero byte. -/
theorem C10_fromCString_null (mem : Mem)
    (h0 : (0 : Nat) ≠ 0 -> ∃ n, mem (0 + n) = 0)
    (p : Nat) (hp : p ≠ 0) (h : p ≠ 0 -> ∃ n, mem (p + n) = 0) :
    fromCString mem 0 h0 = ⟨0, 0⟩ ∧
    (fromCString mem 0 h0).size = 0 ∧
    (fromCString mem p h).Data = p ∧
    mem (p + (fromCString mem p h).Length) = 0 ∧
    ∀ k < (fromCString mem p h).Length, mem (p + k) ≠ 0 := by
  have hnull : fromCString mem 0 h0 = ⟨0, 0⟩ := by
    simp [fromCString]
  have hlen : (fromCString mem p h).Length = Nat.find (h hp) := by
    simp [fromCString, hp]
  refine ⟨hnull, by rw [hnull]; rfl, rfl, ?_, ?_⟩
  · rw [hlen]
    exact Nat.find_spec (h hp)
  · intro k hk
    rw [hlen] at hk
    exact Nat.find_min (h hp) hk

/-- Witness for C10: with a memory whose only zero byte sits at address 5,
construction from the null pointer gives the empty view and construction
from address 3 finds its terminator two bytes in. -/
theorem C10_witness :
    fromCString memW 0 hW0 = ⟨0, 0⟩ ∧
    memW (3 + (fromCString memW 3 hW3).Length) = 0 := by
  have h := C10_fromCString_null memW hW0 3 (by decide) hW3
  exact ⟨h.1, h.2.2.2.1⟩

end Glow
